import Mathlib

/-!
Shallow embedding of the VKeyboard core from kivy/uix/vkeyboard.py:
geometry compilation (refresh_keys_hint, refresh_keys), hit testing
(get_key_at_pos, touch_is_in_margin and the on_touch_down margin gate),
layout fallback (_load_layout), layout mode (_update_layout_mode) and the
multitouch key state machine (process_key_on, process_key_up).
Pixel and hint quantities are modelled as rationals; the Python int()
truncation toward zero is modelled by pyint.
-/

/-- One key tuple of a layout row, as stored in layout[mode_line][i]:
(displayed char, internal char, special char, width units). -/
structure KeyData where
  displayed : String
  internal : String
  special : Option String
  width : ℚ
deriving DecidableEq

/-- The widget data consumed by refresh_keys_hint / refresh_keys /
get_key_at_pos: widget size, margin_hint (top, right, bottom, left),
key_margin (top, right, bottom, left), layout cols and rows, and the key
rows of the current layout mode (list index 0 holds row 1). -/
structure VK where
  w : ℚ
  h : ℚ
  mtop : ℚ
  mright : ℚ
  mbottom : ℚ
  mleft : ℚ
  kmtop : ℚ
  kmright : ℚ
  kmbottom : ℚ
  kmleft : ℚ
  cols : ℕ
  rows : ℕ
  lines : List (List KeyData)
deriving DecidableEq

/-- Python int() applied to a rational: truncation toward zero. -/
def pyint (q : ℚ) : ℤ := if 0 ≤ q then ⌊q⌋ else ⌈q⌉

/-- el_hint of refresh_keys_hint: 1 - mleft - mright. -/
def VK.el (k : VK) : ℚ := 1 - k.mleft - k.mright

/-- eh_hint of refresh_keys_hint: 1 - mtop - mbottom. -/
def VK.eh (k : VK) : ℚ := 1 - k.mtop - k.mbottom

/-- ex_hint of refresh_keys_hint: 0 + mleft. -/
def VK.ex (k : VK) : ℚ := k.mleft

/-- ey_hint of refresh_keys_hint: 0 + mbottom. -/
def VK.ey (k : VK) : ℚ := k.mbottom

/-- uw_hint of refresh_keys_hint: (1 / cols) * el_hint. -/
def VK.uw (k : VK) : ℚ := (1 / (k.cols : ℚ)) * k.el

/-- uh_hint of refresh_keys_hint: (1 / rows) * eh_hint. -/
def VK.uh (k : VK) : ℚ := (1 / (k.rows : ℚ)) * k.eh

/-- current_y_hint after the loop of refresh_keys_hint has reached row l:
it starts at ey + eh and is decremented by uh once per row. -/
def VK.yHint (k : VK) (l : ℤ) : ℚ := k.ey + k.eh - l * k.uh

/-- The inner loop of refresh_keys_hint for one row: starting at
current_x_hint = x0, each key contributes
[(current_x, y), (key.width * uw, uh)] and advances current_x by
key.width * uw. -/
def rowHints (x0 y uw uh : ℚ) : List KeyData → List ((ℚ × ℚ) × (ℚ × ℚ))
  | [] => []
  | kd :: rest => ((x0, y), (kd.width * uw, uh)) :: rowHints (x0 + kd.width * uw) y uw uh rest

/-- layout[mode_l] for row number l (1-based): the key tuples of row l. -/
def VK.lineKeys (k : VK) (l : ℤ) : List KeyData := k.lines.getD (l - 1).toNat []

/-- layout_geometry[LINE_HINT_l] as produced by refresh_keys_hint. -/
def VK.lineHints (k : VK) (l : ℤ) : List ((ℚ × ℚ) × (ℚ × ℚ)) :=
  rowHints k.ex (k.yHint l) k.uw k.uh (k.lineKeys l)

/-- One key of refresh_keys: scale a hint rectangle by the widget size and
adjust by the key margins, truncating every coordinate with int(). -/
def VK.pixelKey (k : VK) (hint : (ℚ × ℚ) × (ℚ × ℚ)) : (ℤ × ℤ) × (ℤ × ℤ) :=
  let kx := pyint (hint.1.1 * k.w + k.kmleft)
  let ky := pyint (hint.1.2 * k.h + k.kmbottom)
  let kw := pyint (hint.2.1 * k.w - k.kmleft - k.kmright)
  let kh := pyint (hint.2.2 * k.h - k.kmbottom - k.kmtop)
  ((kx, ky), (kw, kh))

/-- layout_geometry[LINE_l] as produced by refresh_keys. -/
def VK.lineGeometry (k : VK) (l : ℤ) : List ((ℤ × ℤ) × (ℤ × ℤ)) :=
  (k.lineHints l).map k.pixelKey

/-- Center point of a pixel rectangle ((kx, ky), (kw, kh)). -/
def centerPt (r : (ℤ × ℤ) × (ℤ × ℤ)) : ℚ × ℚ :=
  ((r.1.1 : ℚ) + (r.2.1 : ℚ) / 2, (r.1.2 : ℚ) + (r.2.2 : ℚ) / 2)

/-- The line computation of get_key_at_pos: efficient height, line height,
line_nb = rows - int((y - mbottom * h) / line_height), then the two
clamping conditionals of the source. -/
def VK.lineOfY (k : VK) (y : ℚ) : ℤ :=
  let eheight := k.h - (k.mbottom + k.mtop) * k.h
  let lineheight := eheight / (k.rows : ℚ)
  let y2 := y - k.mbottom * k.h
  let ln0 : ℤ := (k.rows : ℤ) - pyint (y2 / lineheight)
  let ln1 : ℤ := if ln0 > (k.rows : ℤ) then (k.rows : ℤ) else ln0
  if ln1 < 1 then 1 else ln1

/-- The key scan of get_key_at_pos: walk the hint list of the resolved
line and return the index of the first key whose x interval
[x_hint, x_hint + w_hint) contains the normalized x. -/
def scanKeys (xh : ℚ) : List ((ℚ × ℚ) × (ℚ × ℚ)) → ℕ → Option ℕ
  | [], _ => none
  | hint :: rest, i =>
    if xh ≥ hint.1.1 ∧ xh < hint.1.1 + hint.2.1 then some i
    else scanKeys xh rest (i + 1)

/-- get_key_at_pos: normalize x, resolve the line from y, scan that line
for the key containing x, and pair the key tuple with (line_nb, index).
A missing row in the layout table (an exception in the source) is
modelled as none. -/
def VK.get_key_at_pos (k : VK) (x y : ℚ) : Option (KeyData × ℤ × ℕ) :=
  let xh := x / k.w
  let ln := k.lineOfY y
  match scanKeys xh (k.lineHints ln) 0 with
  | none => none
  | some i =>
    match (k.lineKeys ln).get? i with
    | none => none
    | some kd => some (kd, ln, i)

/-- touch_is_in_margin: the point is in the margin unless its normalized
position lies strictly inside (mleft, 1 - mright) x (mbottom, 1 - mtop). -/
def VK.touch_is_in_margin (k : VK) (x y : ℚ) : Bool :=
  let xh := x / k.w
  let yh := y / k.h
  if xh > k.mleft ∧ xh < 1 - k.mright ∧ yh > k.mbottom ∧ yh < 1 - k.mtop then false
  else true

/-- The hit-test path of on_touch_down: a touch in the margin is never
given to process_key_on (it goes to the scatter instead), otherwise the
key is resolved with get_key_at_pos. -/
def VK.locateKey (k : VK) (x y : ℚ) : Option (KeyData × ℤ × ℕ) :=
  if k.touch_is_in_margin x y then none else k.get_key_at_pos x y

/-- The mode computation of _update_layout_mode:
mode = have_capslock != have_shift, then shift or normal. -/
def computeMode (have_shift have_capslock : Bool) : String :=
  if have_capslock != have_shift then "shift" else "normal"

/-- The resolution step of _load_layout: with no available layouts it
returns early; a requested name that is neither available nor the qwerty
default is logged (flag true) and replaced by qwerty. Result: the layout
name kept and whether the fallback warning fired. -/
def load_layout (available : List String) (value : String) : String × Bool :=
  if available = [] then (value, false)
  else if value ∉ available ∧ value ≠ "qwerty" then ("qwerty", true)
  else (value, false)

/-- Dictionary lookup on an association list (Python dict read). -/
def dget {κ α : Type} [DecidableEq κ] : List (κ × α) → κ → Option α
  | [], _ => none
  | p :: rest, k => if p.1 = k then some p.2 else dget rest k

/-- Dictionary assignment d[k] = v. -/
def dset {κ α : Type} [DecidableEq κ] (m : List (κ × α)) (k : κ) (v : α) : List (κ × α) :=
  (k, v) :: m.filter (fun p => decide (p.1 ≠ k))

/-- Dictionary removal d.pop(k, None). -/
def dpop {κ α : Type} [DecidableEq κ] (m : List (κ × α)) (k : κ) : List (κ × α) :=
  m.filter (fun p => decide (p.1 ≠ k))

/-- The VKeyboard state touched by process_key_on / process_key_up:
active_keys (keys are touch uids as integers, the capslock sentinel is
-1), have_shift, have_capslock, the per-touch ud[self.uid] record of the
pressed key, and the key tuples handed to send. -/
structure KState where
  active : List (ℤ × (ℤ × ℕ))
  haveShift : Bool
  haveCapslock : Bool
  ud : List (ℕ × (KeyData × ℤ × ℕ))
  sent : List KeyData
deriving DecidableEq

/-- The state before any touch. -/
def initState : KState := ⟨[], false, false, [], []⟩

/-- The membership test of process_key_on deciding whether a key tuple is
handed to send: special chars shift_L, shift_R, capslock, layout are not
sent. -/
def sendSuppress (sp : Option String) : Bool :=
  sp == some "shift_L" || sp == some "shift_R" || sp == some "capslock" || sp == some "layout"

/-- process_key_on for a touch with uid t whose position resolved to res
(the result of get_key_at_pos). The source records the key in touch.ud,
sends non-modifier keys, toggles have_capslock and redirects the uid to
the sentinel -1 for capslock, sets have_shift for shift keys, and then
stores the (line, index) pair in active_keys under the chosen uid. A
layout key calls change_layout, which is assert(0) in the source: the
handler aborts, modelled as none. -/
def process_key_on (s : KState) (t : ℕ) (res : Option (KeyData × ℤ × ℕ)) : Option KState :=
  match res with
  | none => some s
  | some key =>
    let ud1 := dset s.ud t key
    let sent1 := if sendSuppress key.1.special then s.sent else s.sent ++ [key.1]
    match key.1.special with
    | some sp =>
      if sp = "capslock" then
        some ⟨dset s.active (-1) key.2, s.haveShift, !s.haveCapslock, ud1, sent1⟩
      else if sp = "shift_L" ∨ sp = "shift_R" then
        some ⟨dset s.active (t : ℤ) key.2, true, s.haveCapslock, ud1, sent1⟩
      else if sp = "layout" then
        none
      else
        some ⟨dset s.active (t : ℤ) key.2, s.haveShift, s.haveCapslock, ud1, sent1⟩
    | none => some ⟨dset s.active (t : ℤ) key.2, s.haveShift, s.haveCapslock, ud1, sent1⟩

/-- process_key_up for a touch with uid t: nothing happens when the touch
recorded no key; otherwise the uid is redirected to -1 for capslock and,
when the uid is an active key, the entry is popped, have_shift is cleared
for shift keys, and for capslock with have_capslock still set the
sentinel entry is re-inserted. -/
def process_key_up (s : KState) (t : ℕ) : KState :=
  match dget s.ud t with
  | none => s
  | some key =>
    let uid : ℤ := if key.1.special = some "capslock" then -1 else (t : ℤ)
    if (dget s.active uid).isSome then
      let active1 := dpop s.active uid
      let shift1 :=
        if key.1.special = some "shift_L" ∨ key.1.special = some "shift_R" then false
        else s.haveShift
      let active2 :=
        if key.1.special = some "capslock" ∧ s.haveCapslock = true then dset active1 (-1) key.2
        else active1
      ⟨active2, shift1, s.haveCapslock, s.ud, s.sent⟩
    else s

/-- A touch event: a touch-down carrying the key resolution made by
get_key_at_pos for its position, or a touch-up. -/
inductive KEvent where
  | down : ℕ → Option (KeyData × ℤ × ℕ) → KEvent
  | up : ℕ → KEvent
deriving DecidableEq

/-- One event step; none propagates an aborted handler. -/
def stepEv (s : KState) : KEvent → Option KState
  | KEvent.down t res => process_key_on s t res
  | KEvent.up t => some (process_key_up s t)

/-- Run a list of events from a state. -/
def runFrom : KState → List KEvent → Option KState
  | s, [] => some s
  | s, e :: r =>
    match stepEv s e with
    | none => none
    | some s1 => runFrom s1 r

/-- Run a list of events from the initial state. -/
def runTrace (evs : List KEvent) : Option KState := runFrom initState evs

/-- Ghost bookkeeping: the uids currently down after a list of events. -/
def downsAfter : List ℕ → List KEvent → List ℕ
  | dn, [] => dn
  | dn, KEvent.down t _ :: r => downsAfter (t :: dn) r
  | dn, KEvent.up t :: r => downsAfter (dn.erase t) r

/-- Well-formed event lists: every touch-down uses a fresh uid and every
touch-up releases a uid that is currently down. -/
def wfAux : List ℕ → List ℕ → List KEvent → Bool
  | _, _, [] => true
  | used, dn, KEvent.down t _ :: r => !(used.contains t) && wfAux (t :: used) (t :: dn) r
  | used, dn, KEvent.up t :: r => dn.contains t && wfAux used (dn.erase t) r

/-- Well-formedness from the empty history. -/
def wfTrace (evs : List KEvent) : Bool := wfAux [] [] evs

/-- Whether the key recorded for touch t is a capslock key. -/
def udIsCaps (ud : List (ℕ × (KeyData × ℤ × ℕ))) (t : ℕ) : Bool :=
  match dget ud t with
  | some key => key.1.special == some "capslock"
  | none => false

/-- How many currently-down touches resolved to capslock. -/
def capsHeld (ud : List (ℕ × (KeyData × ℤ × ℕ))) (dn : List ℕ) : ℕ := dn.countP (udIsCaps ud)

/-- The inductive invariant of the key state machine relative to the set
dn of currently-down touch uids. -/
def InvP (s : KState) (dn : List ℕ) : Prop :=
  (s.haveCapslock = true → (dget s.active (-1)).isSome = true)
  ∧ (capsHeld s.ud dn = 0 → (dget s.active (-1)).isSome = true → s.haveCapslock = true)
  ∧ (∀ t : ℕ, (dget s.active (t : ℤ)).isSome = true →
      t ∈ dn ∧ ∃ key, dget s.ud t = some key ∧ key.1.special ≠ some "capslock")

/-- A plain character key. -/
def kdA : KeyData := ⟨"a", "a", none, 1⟩

/-- Another plain character key. -/
def kdB : KeyData := ⟨"b", "b", none, 1⟩

/-- A capslock key tuple. -/
def capsKD : KeyData := ⟨"caps", "caps", some "capslock", 1⟩

/-- A left-shift key tuple. -/
def shiftLKD : KeyData := ⟨"shift", "shift", some "shift_L", 1⟩

/-- A right-shift key tuple. -/
def shiftRKD : KeyData := ⟨"shift", "shift", some "shift_R", 1⟩

/-- The default widget: size (700, 200), margin_hint (.05, .06, .05, .06),
key_margin (2, 2, 2, 2), with a one-row two-key layout. -/
def kWit : VK :=
  ⟨700, 200, 1/20, 3/50, 1/20, 3/50, 2, 2, 2, 2, 2, 1, [[kdA, kdB]]⟩

/-- A widget with zero margin hints, a huge right key margin and a tiny
size, making the second key rectangle degenerate. -/
def kSquash : VK :=
  ⟨20, 10, 0, 0, 0, 0, 0, 12, 0, 0, 2, 1, [[kdA, kdB]]⟩

/-- A widget whose margin hints are invalid: every margin 3/5, so
top + bottom and left + right both exceed 1. -/
def kBadMargins : VK :=
  ⟨10, 10, 3/5, 3/5, 3/5, 3/5, 0, 0, 0, 0, 1, 1, [[kdA]]⟩

/-- Touch 1 presses capslock, releases it, then touch 2 presses capslock
again: capslock toggles on, stays on over the release, and toggles off on
the second press while the sentinel highlight is re-recorded. -/
def capsTrace : List KEvent :=
  [KEvent.down 1 (some (capsKD, 1, 0)), KEvent.up 1, KEvent.down 2 (some (capsKD, 1, 0))]

/-- Touch 1 presses capslock and releases it. -/
def capsOnTrace : List KEvent :=
  [KEvent.down 1 (some (capsKD, 1, 0)), KEvent.up 1]

/-- The state after capsOnTrace. -/
def capsOnState : KState :=
  ⟨[(-1, (1, 0))], false, true, [(1, (capsKD, 1, 0))], []⟩

/-- Touch 1 holds shift_L, touch 2 holds shift_R, then touch 1 alone is
released while touch 2 stays down. -/
def twoShiftTrace : List KEvent :=
  [KEvent.down 1 (some (shiftLKD, 3, 0)), KEvent.down 2 (some (shiftRKD, 3, 9)), KEvent.up 1]

/-- A state with two shift touches down (uids 1 and 2). -/
def twoShiftState : KState :=
  ⟨[(2, (3, 9)), (1, (3, 0))], true, false,
   [(2, (shiftRKD, 3, 9)), (1, (shiftLKD, 3, 0))], []⟩

lemma dget_dpop_ne {κ α : Type} [DecidableEq κ] (m : List (κ × α)) (k k2 : κ)
    (h : k2 ≠ k) : dget (dpop m k) k2 = dget m k2 := by
  induction m with
  | nil => rfl
  | cons p rest ih =>
    by_cases hp : p.1 = k
    · have hd : decide (p.1 ≠ k) = false := by simp [hp]
      show dget (List.filter (fun p => decide (p.1 ≠ k)) (p :: rest)) k2 = dget (p :: rest) k2
      rw [List.filter_cons, hd]
      simp only [Bool.false_eq_true, if_false]
      show dget (dpop rest k) k2 = dget (p :: rest) k2
      rw [ih]
      have hne : p.1 ≠ k2 := by rw [hp]; exact fun hh => h hh.symm
      simp [dget, hne]
    · have hd : decide (p.1 ≠ k) = true := by simp [hp]
      show dget (List.filter (fun p => decide (p.1 ≠ k)) (p :: rest)) k2 = dget (p :: rest) k2
      rw [List.filter_cons, hd]
      simp only [if_true]
      show (if p.1 = k2 then some p.2 else dget (dpop rest k) k2)
          = (if p.1 = k2 then some p.2 else dget rest k2)
      rw [ih]

lemma dget_dpop_self {κ α : Type} [DecidableEq κ] (m : List (κ × α)) (k : κ) :
    dget (dpop m k) k = none := by
  induction m with
  | nil => rfl
  | cons p rest ih =>
    by_cases hp : p.1 = k
    · have hd : decide (p.1 ≠ k) = false := by simp [hp]
      show dget (List.filter (fun p => decide (p.1 ≠ k)) (p :: rest)) k = none
      rw [List.filter_cons, hd]
      simp only [Bool.false_eq_true, if_false]
      exact ih
    · have hd : decide (p.1 ≠ k) = true := by simp [hp]
      show dget (List.filter (fun p => decide (p.1 ≠ k)) (p :: rest)) k = none
      rw [List.filter_cons, hd]
      simp only [if_true]
      show (if p.1 = k then some p.2 else dget (dpop rest k) k) = none
      rw [if_neg hp]
      exact ih

lemma dget_dset_self {κ α : Type} [DecidableEq κ] (m : List (κ × α)) (k : κ) (v : α) :
    dget (dset m k v) k = some v := by
  simp [dget, dset]

lemma dget_dset_ne {κ α : Type} [DecidableEq κ] (m : List (κ × α)) (k : κ) (v : α) (k2 : κ)
    (h : k2 ≠ k) : dget (dset m k v) k2 = dget m k2 := by
  have hne : k ≠ k2 := fun hh => h hh.symm
  show (if k = k2 then some v else dget (dpop m k) k2) = dget m k2
  rw [if_neg hne]
  exact dget_dpop_ne m k k2 h

lemma udIsCaps_dset_self (ud : List (ℕ × (KeyData × ℤ × ℕ))) (t : ℕ) (key : KeyData × ℤ × ℕ) :
    udIsCaps (dset ud t key) t = (key.1.special == some "capslock") := by
  simp [udIsCaps, dget_dset_self]

lemma udIsCaps_dset_ne (ud : List (ℕ × (KeyData × ℤ × ℕ))) (t x : ℕ) (key : KeyData × ℤ × ℕ)
    (h : x ≠ t) : udIsCaps (dset ud t key) x = udIsCaps ud x := by
  simp [udIsCaps, dget_dset_ne ud t key x h]

lemma capsHeld_cons (ud : List (ℕ × (KeyData × ℤ × ℕ))) (t : ℕ) (dn : List ℕ) :
    capsHeld ud (t :: dn) = capsHeld ud dn + (if udIsCaps ud t then 1 else 0) := by
  simp [capsHeld, List.countP_cons]

lemma capsHeld_congr (ud1 ud2 : List (ℕ × (KeyData × ℤ × ℕ))) (dn : List ℕ)
    (h : ∀ x ∈ dn, udIsCaps ud2 x = udIsCaps ud1 x) : capsHeld ud2 dn = capsHeld ud1 dn := by
  induction dn with
  | nil => rfl
  | cons a dn ih =>
    rw [capsHeld_cons, capsHeld_cons, h a (by simp), ih (fun x hx => h x (by simp [hx]))]

lemma capsHeld_erase (ud : List (ℕ × (KeyData × ℤ × ℕ))) (dn : List ℕ) (t : ℕ)
    (h : udIsCaps ud t = false) : capsHeld ud (dn.erase t) = capsHeld ud dn := by
  induction dn with
  | nil => rfl
  | cons a dn ih =>
    by_cases ha : a = t
    · subst ha
      rw [List.erase_cons_head, capsHeld_cons, h]
      simp
    · rw [List.erase_cons_tail (by simp [ha]), capsHeld_cons, capsHeld_cons, ih]

/-- C2: the layout mode computed by _update_layout_mode is the XOR of
have_shift and have_capslock: both or neither give normal, exactly one
gives shift; in particular shift held while capslock is on yields normal. -/
theorem computeMode_xor :
    computeMode true true = "normal" ∧ computeMode true false = "shift"
    ∧ computeMode false true = "shift" ∧ computeMode false false = "normal" := by
  decide

/-- C4: a point whose normalized coordinates fall outside the open
rectangle (mleft, 1 - mright) x (mbottom, 1 - mtop) is stopped by the
margin gate of on_touch_down, so it never resolves to a key. -/
theorem margin_points_resolve_none (k : VK) (x y : ℚ)
    (hm : ¬ (k.mleft < x / k.w ∧ x / k.w < 1 - k.mright ∧
             k.mbottom < y / k.h ∧ y / k.h < 1 - k.mtop)) :
    k.locateKey x y = none := by
  unfold VK.locateKey VK.touch_is_in_margin
  simp only [gt_iff_lt]
  rw [if_neg hm]
  simp

/-- Witness for margin_points_resolve_none at the default widget and the
point (1, 1), which lies in the left margin band. -/
theorem margin_points_resolve_none_witness : kWit.locateKey 1 1 = none :=
  margin_points_resolve_none kWit 1 1 (by with_unfolding_all decide)

/-- C8: _load_layout keeps a registered layout name unchanged, and
replaces an unregistered name other than qwerty by qwerty while firing
the fallback warning. -/
theorem layout_fallback (available : List String) (value : String) :
    (value ∈ available → load_layout available value = (value, false))
    ∧ (available ≠ [] → value ∉ available → value ≠ "qwerty" →
        load_layout available value = ("qwerty", true)) := by
  constructor
  · intro hv
    have hne : available ≠ [] := by rintro rfl; simp at hv
    unfold load_layout
    rw [if_neg hne, if_neg (fun hh => hh.1 hv)]
  · intro h1 h2 h3
    unfold load_layout
    rw [if_neg h1, if_pos ⟨h2, h3⟩]

/-- Witness for layout_fallback: requesting doesnotexist with only qwerty
registered falls back to qwerty with the warning fired. -/
theorem layout_fallback_witness :
    load_layout ["qwerty"] "doesnotexist" = ("qwerty", true) :=
  (layout_fallback ["qwerty"] "doesnotexist").2 (by decide) (by decide) (by decide)

/-- C10: process_key_up for a touch that recorded no key returns with the
whole state unchanged. -/
theorem key_up_unknown_touch_noop (s : KState) (t : ℕ)
    (h : dget s.ud t = none) : process_key_up s t = s := by
  unfold process_key_up
  rw [h]

/-- Witness for key_up_unknown_touch_noop on the initial state and an
unknown touch uid. -/
theorem key_up_unknown_touch_noop_witness : process_key_up initState 0 = initState :=
  key_up_unknown_touch_noop initState 0 (by decide)

lemma rowHints_width_sum (keys : List KeyData) :
    ∀ x0 y uw uh : ℚ, ((rowHints x0 y uw uh keys).map (fun e => e.2.1)).sum
      = ((keys.map KeyData.width).sum) * uw := by
  induction keys with
  | nil => intro x0 y uw uh; simp [rowHints]
  | cons kd rest ih =>
    intro x0 y uw uh
    simp [rowHints, ih]
    ring

/-- C7: for valid margins, a row whose width units sum exactly to cols
compiles to hint widths summing to 1 - mleft - mright. -/
theorem row_hint_width_sum (k : VK) (l : ℤ)
    (h1 : k.mtop + k.mbottom < 1) (h2 : k.mleft + k.mright < 1) (hc : 0 < k.cols)
    (hsum : ((k.lineKeys l).map KeyData.width).sum = (k.cols : ℚ)) :
    ((k.lineHints l).map (fun e => e.2.1)).sum = 1 - k.mleft - k.mright := by
  unfold VK.lineHints
  rw [rowHints_width_sum, hsum]
  unfold VK.uw VK.el
  have hc0 : (k.cols : ℚ) ≠ 0 := by
    have : (0 : ℚ) < (k.cols : ℚ) := by exact_mod_cast hc
    linarith
  field_simp

/-- Witness for row_hint_width_sum on the default widget, whose single
row has width units 1 + 1 = 2 = cols. -/
theorem row_hint_width_sum_witness :
    ((kWit.lineHints 1).map (fun e => e.2.1)).sum = 1 - kWit.mleft - kWit.mright :=
  row_hint_width_sum kWit 1 (by with_unfolding_all decide) (by with_unfolding_all decide)
    (by decide) (by with_unfolding_all decide)

/-- C9 counterexample: with all four margins 3/5 (so top + bottom and
left + right both exceed 1) hint compilation does not fail: it returns a
geometry, whose single key has hint width and height -1/5. -/
theorem invalid_margins_still_compile :
    kBadMargins.lineHints 1 = [((3/5, 3/5), (-(1/5), -(1/5)))] := by
  with_unfolding_all decide

lemma mem_rowHints_width (keys : List KeyData) :
    ∀ (x0 y uw uh : ℚ) (e : (ℚ × ℚ) × (ℚ × ℚ)), e ∈ rowHints x0 y uw uh keys →
      ∃ kd ∈ keys, e.2.1 = kd.width * uw := by
  induction keys with
  | nil => intro x0 y uw uh e he; simp [rowHints] at he
  | cons kd rest ih =>
    intro x0 y uw uh e he
    rw [rowHints, List.mem_cons] at he
    rcases he with rfl | he
    · exact ⟨kd, List.mem_cons_self kd rest, rfl⟩
    · obtain ⟨kd2, hm, hw⟩ := ih _ y uw uh e he
      exact ⟨kd2, List.mem_cons_of_mem _ hm, hw⟩

/-- C9 amended: refresh_keys_hint performs no margin validation and never
fails; with left + right at least 1 it silently produces a geometry in
which every key hint width is non-positive. -/
theorem no_margin_validation (k : VK) (l : ℤ)
    (hm : 1 ≤ k.mleft + k.mright)
    (hw : ∀ kd ∈ k.lineKeys l, 0 ≤ kd.width) :
    ∀ e ∈ k.lineHints l, e.2.1 ≤ 0 := by
  intro e he
  obtain ⟨kd, hmem, hweq⟩ := mem_rowHints_width _ _ _ _ _ e he
  rw [hweq]
  have h1 : k.el ≤ 0 := by unfold VK.el; linarith
  have h2 : (0 : ℚ) ≤ 1 / (k.cols : ℚ) := by positivity
  have h3 : k.uw ≤ 0 := by
    unfold VK.uw
    exact mul_nonpos_of_nonneg_of_nonpos h2 h1
  exact mul_nonpos_of_nonneg_of_nonpos (hw kd hmem) h3

/-- Witness for no_margin_validation: the key of kBadMargins gets a
non-positive hint width. -/
theorem no_margin_validation_witness :
    ((((3 : ℚ)/5, (3 : ℚ)/5), (-(1 : ℚ)/5, -(1 : ℚ)/5)) : (ℚ × ℚ) × (ℚ × ℚ)).2.1 ≤ 0 :=
  no_margin_validation kBadMargins 1 (by with_unfolding_all decide)
    (by with_unfolding_all decide) _ (by with_unfolding_all decide)

/-- C3 counterexample: in kSquash (huge right key margin) key index 1 of
row 1 has pixel rectangle ((10, 0), (-2, 10)) with center (9, 5), but
get_key_at_pos at that center resolves to key index 0, not 1. -/
theorem hit_center_mismatch :
    ((kSquash.lineGeometry 1).get? 1).map centerPt = some (9, 5)
    ∧ (kSquash.get_key_at_pos 9 5).map (fun p => p.2) = some (1, 0) := by
  with_unfolding_all decide

/-- C1 counterexample: touch 1 presses and releases capslock, then touch
2 presses capslock again; after that touch-down handler have_capslock is
false while the sentinel entry -1 is still present in active_keys. -/
theorem capslock_sentinel_desync :
    wfTrace capsTrace = true
    ∧ (runTrace capsTrace).map (fun s => (s.haveCapslock, (dget s.active (-1)).isSome))
        = some (false, true) := by
  decide

/-- C5 counterexample: touches 1 and 2 hold shift_L and shift_R, then
touch 1 alone is released: have_shift drops to false although the shift
touch 2 is still down. -/
theorem double_shift_release_clears :
    wfTrace twoShiftTrace = true
    ∧ (runTrace twoShiftTrace).map KState.haveShift = some false
    ∧ (runTrace twoShiftTrace).map (fun s => dget s.ud 2) = some (some (shiftRKD, 3, 9))
    ∧ 2 ∈ downsAfter [] twoShiftTrace := by
  decide

/-- C5 amended: have_shift is a plain boolean assignment with no count of
held shift touches: every touch-down resolving to shift_L or shift_R sets
it true, and every release of a touch whose recorded key is shift_L or
shift_R (and whose uid is an active key) sets it false, regardless of any
other shift touch still held. -/
theorem shift_plain_assignment (s : KState) (t : ℕ) (kd : KeyData) (pos : ℤ × ℕ)
    (key : KeyData × ℤ × ℕ)
    (hsp : kd.special = some "shift_L" ∨ kd.special = some "shift_R") :
    ((process_key_on s t (some (kd, pos))).map KState.haveShift = some true)
    ∧ (dget s.ud t = some key →
        (key.1.special = some "shift_L" ∨ key.1.special = some "shift_R") →
        (dget s.active (t : ℤ)).isSome = true →
        (process_key_up s t).haveShift = false) := by
  constructor
  · rcases hsp with h | h <;> simp [process_key_on, h, sendSuppress]
  · intro hud hsp2 hact
    have hnc : key.1.special ≠ some "capslock" := by
      rcases hsp2 with h | h <;> simp [h]
    unfold process_key_up
    rw [hud]
    simp only [if_neg hnc, hact, if_true]
    simp [if_pos hsp2]

/-- Witness for shift_plain_assignment: with shift touches 1 and 2 both
down, releasing touch 1 alone clears have_shift. -/
theorem shift_plain_assignment_witness : (process_key_up twoShiftState 1).haveShift = false :=
  (shift_plain_assignment twoShiftState 1 shiftLKD (3, 0) (shiftLKD, 3, 0)
      (by decide)).2 (by decide) (by decide) (by decide)

lemma process_key_up_ud (s : KState) (t : ℕ) : (process_key_up s t).ud = s.ud := by
  unfold process_key_up
  cases hud : dget s.ud t with
  | none => rfl
  | some key =>
    dsimp only
    split <;> split <;> rfl

lemma invp_down_skip (s : KState) (dn : List ℕ) (t : ℕ)
    (hInv : InvP s dn) : InvP s (t :: dn) := by
  obtain ⟨h1, h2, h3⟩ := hInv
  refine ⟨h1, ?_, ?_⟩
  · intro hch hsent
    rw [capsHeld_cons] at hch
    exact h2 (by omega) hsent
  · intro x hx
    obtain ⟨hmem, hrest⟩ := h3 x hx
    exact ⟨List.mem_cons_of_mem _ hmem, hrest⟩

lemma invp_down_caps (s : KState) (dn : List ℕ) (t : ℕ) (key : KeyData × ℤ × ℕ)
    (b c : Bool) (snt : List KeyData)
    (hInv : InvP s dn) (htdn : t ∉ dn) (hsp : key.1.special = some "capslock") :
    InvP ⟨dset s.active (-1) key.2, b, c, dset s.ud t key, snt⟩ (t :: dn) := by
  obtain ⟨h1, h2, h3⟩ := hInv
  refine ⟨?_, ?_, ?_⟩
  · intro _
    rw [dget_dset_self]
    rfl
  · intro hch _
    exfalso
    rw [capsHeld_cons, udIsCaps_dset_self, hsp] at hch
    simp at hch
  · intro x hx
    have hxz : ((x : ℕ) : ℤ) ≠ (-1 : ℤ) := by
      have : (0 : ℤ) ≤ ((x : ℕ) : ℤ) := Int.natCast_nonneg x
      omega
    rw [dget_dset_ne _ _ _ _ hxz] at hx
    obtain ⟨hmem, key2, hk2, hk2c⟩ := h3 x hx
    have hxt : x ≠ t := fun hh => htdn (hh ▸ hmem)
    refine ⟨List.mem_cons_of_mem _ hmem, key2, ?_, hk2c⟩
    rw [dget_dset_ne _ _ _ _ hxt]
    exact hk2

lemma invp_down_other (s : KState) (dn : List ℕ) (t : ℕ) (key : KeyData × ℤ × ℕ)
    (b : Bool) (snt : List KeyData)
    (hInv : InvP s dn) (htdn : t ∉ dn) (hsp : key.1.special ≠ some "capslock") :
    InvP ⟨dset s.active (t : ℤ) key.2, b, s.haveCapslock, dset s.ud t key, snt⟩ (t :: dn) := by
  obtain ⟨h1, h2, h3⟩ := hInv
  have hneg : (-1 : ℤ) ≠ ((t : ℕ) : ℤ) := by
    have : (0 : ℤ) ≤ ((t : ℕ) : ℤ) := Int.natCast_nonneg t
    omega
  refine ⟨?_, ?_, ?_⟩
  · intro hc
    rw [dget_dset_ne _ _ _ _ hneg]
    exact h1 hc
  · intro hch hsent
    rw [capsHeld_cons] at hch
    have hdn0 : capsHeld (dset s.ud t key) dn = 0 := by
      cases hi : udIsCaps (dset s.ud t key) t <;> rw [hi] at hch <;> simp at hch <;> omega
    have hcongr : capsHeld (dset s.ud t key) dn = capsHeld s.ud dn := by
      refine capsHeld_congr s.ud (dset s.ud t key) dn ?_
      intro x hxdn
      exact udIsCaps_dset_ne s.ud t x key (fun hh => htdn (hh ▸ hxdn))
    rw [dget_dset_ne _ _ _ _ hneg] at hsent
    rw [hcongr] at hdn0
    exact h2 hdn0 hsent
  · intro x hx
    by_cases hxt : x = t
    · subst hxt
      refine ⟨List.mem_cons_self x dn, key, ?_, hsp⟩
      rw [dget_dset_self]
    · have hxz : ((x : ℕ) : ℤ) ≠ ((t : ℕ) : ℤ) := by exact_mod_cast hxt
      rw [dget_dset_ne _ _ _ _ hxz] at hx
      obtain ⟨hmem, key2, hk2, hk2c⟩ := h3 x hx
      refine ⟨List.mem_cons_of_mem _ hmem, key2, ?_, hk2c⟩
      rw [dget_dset_ne _ _ _ _ hxt]
      exact hk2

lemma invp_up (s : KState) (dn : List ℕ) (t : ℕ) (hInv : InvP s dn) :
    InvP (process_key_up s t) (dn.erase t) := by
  obtain ⟨h1, h2, h3⟩ := hInv
  cases hud : dget s.ud t with
  | none =>
    have heq : process_key_up s t = s := by
      unfold process_key_up
      rw [hud]
    rw [heq]
    refine ⟨h1, ?_, ?_⟩
    · intro hch hsent
      rw [capsHeld_erase s.ud dn t (by simp [udIsCaps, hud])] at hch
      exact h2 hch hsent
    · intro x hx
      obtain ⟨hmem, key2, hk2, hk2c⟩ := h3 x hx
      have hxt : x ≠ t := fun hh => by rw [hh, hud] at hk2; exact Option.noConfusion hk2
      exact ⟨(List.mem_erase_of_ne hxt).mpr hmem, key2, hk2, hk2c⟩
  | some key =>
    have hxt_of : ∀ x key2, dget s.ud x = some key2 → key2.1.special ≠ some "capslock" →
        key.1.special = some "capslock" → x ≠ t := by
      intro x key2 hk2 hk2c hcp hh
      rw [hh, hud] at hk2
      injection hk2 with he
      exact hk2c (he ▸ hcp)
    by_cases hcaps : key.1.special = some "capslock"
    · by_cases hact : (dget s.active (-1)).isSome = true
      · have hnshift : ¬(key.1.special = some "shift_L" ∨ key.1.special = some "shift_R") := by
          simp [hcaps]
        by_cases hcl : s.haveCapslock = true
        · have heq : process_key_up s t
              = ⟨dset (dpop s.active (-1)) (-1) key.2, s.haveShift, s.haveCapslock,
                 s.ud, s.sent⟩ := by
            unfold process_key_up
            rw [hud]
            dsimp only
            rw [if_pos hcaps, if_pos hact, if_neg hnshift, if_pos ⟨hcaps, hcl⟩]
          rw [heq]
          refine ⟨?_, ?_, ?_⟩
          · intro _
            rw [dget_dset_self]
            rfl
          · intro _ _
            exact hcl
          · intro x hx
            have hxz : ((x : ℕ) : ℤ) ≠ (-1 : ℤ) := by
              have : (0 : ℤ) ≤ ((x : ℕ) : ℤ) := Int.natCast_nonneg x
              omega
            rw [dget_dset_ne _ _ _ _ hxz, dget_dpop_ne _ _ _ hxz] at hx
            obtain ⟨hmem, key2, hk2, hk2c⟩ := h3 x hx
            exact ⟨(List.mem_erase_of_ne (hxt_of x key2 hk2 hk2c hcaps)).mpr hmem,
              key2, hk2, hk2c⟩
        · have heq : process_key_up s t
              = ⟨dpop s.active (-1), s.haveShift, s.haveCapslock, s.ud, s.sent⟩ := by
            unfold process_key_up
            rw [hud]
            dsimp only
            rw [if_pos hcaps, if_pos hact, if_neg hnshift,
              if_neg (fun hc => hcl hc.2)]
          rw [heq]
          refine ⟨?_, ?_, ?_⟩
          · intro hc
            exact absurd hc hcl
          · intro _ hsent
            rw [dget_dpop_self] at hsent
            simp at hsent
          · intro x hx
            have hxz : ((x : ℕ) : ℤ) ≠ (-1 : ℤ) := by
              have : (0 : ℤ) ≤ ((x : ℕ) : ℤ) := Int.natCast_nonneg x
              omega
            rw [dget_dpop_ne _ _ _ hxz] at hx
            obtain ⟨hmem, key2, hk2, hk2c⟩ := h3 x hx
            exact ⟨(List.mem_erase_of_ne (hxt_of x key2 hk2 hk2c hcaps)).mpr hmem,
              key2, hk2, hk2c⟩
      · have heq : process_key_up s t = s := by
          unfold process_key_up
          rw [hud]
          dsimp only
          rw [if_pos hcaps, if_neg hact]
        rw [heq]
        refine ⟨h1, ?_, ?_⟩
        · intro _ hsent
          exact absurd hsent hact
        · intro x hx
          obtain ⟨hmem, key2, hk2, hk2c⟩ := h3 x hx
          exact ⟨(List.mem_erase_of_ne (hxt_of x key2 hk2 hk2c hcaps)).mpr hmem,
            key2, hk2, hk2c⟩
    · have hudc : udIsCaps s.ud t = false := by
        simp [udIsCaps, hud, hcaps]
      have hneg : (-1 : ℤ) ≠ ((t : ℕ) : ℤ) := by
        have : (0 : ℤ) ≤ ((t : ℕ) : ℤ) := Int.natCast_nonneg t
        omega
      by_cases hact : (dget s.active ((t : ℕ) : ℤ)).isSome = true
      · have heq : process_key_up s t
            = ⟨dpop s.active ((t : ℕ) : ℤ),
               (if key.1.special = some "shift_L" ∨ key.1.special = some "shift_R"
                then false else s.haveShift),
               s.haveCapslock, s.ud, s.sent⟩ := by
          unfold process_key_up
          rw [hud]
          dsimp only
          rw [if_neg hcaps, if_pos hact, if_neg (fun hc => hcaps hc.1)]
        rw [heq]
        refine ⟨?_, ?_, ?_⟩
        · intro hc
          rw [dget_dpop_ne _ _ _ hneg]
          exact h1 hc
        · intro hch hsent
          rw [capsHeld_erase s.ud dn t hudc] at hch
          rw [dget_dpop_ne _ _ _ hneg] at hsent
          exact h2 hch hsent
        · intro x hx
          by_cases hxt : x = t
          · subst hxt
            rw [dget_dpop_self] at hx
            simp at hx
          · have hxz : ((x : ℕ) : ℤ) ≠ ((t : ℕ) : ℤ) := by exact_mod_cast hxt
            rw [dget_dpop_ne _ _ _ hxz] at hx
            obtain ⟨hmem, key2, hk2, hk2c⟩ := h3 x hx
            exact ⟨(List.mem_erase_of_ne hxt).mpr hmem, key2, hk2, hk2c⟩
      · have heq : process_key_up s t = s := by
          unfold process_key_up
          rw [hud]
          dsimp only
          rw [if_neg hcaps, if_neg hact]
        rw [heq]
        refine ⟨h1, ?_, ?_⟩
        · intro hch hsent
          rw [capsHeld_erase s.ud dn t hudc] at hch
          exact h2 hch hsent
        · intro x hx
          by_cases hxt : x = t
          · subst hxt
            exact absurd hx hact
          · obtain ⟨hmem, key2, hk2, hk2c⟩ := h3 x hx
            exact ⟨(List.mem_erase_of_ne hxt).mpr hmem, key2, hk2, hk2c⟩

lemma inv_run (evs : List KEvent) :
    ∀ (s : KState) (used dn : List ℕ) (sf : KState),
      InvP s dn → (∀ x ∈ dn, x ∈ used) →
      (∀ x : ℕ, (dget s.ud x).isSome = true → x ∈ used) →
      wfAux used dn evs = true → runFrom s evs = some sf →
      InvP sf (downsAfter dn evs) := by
  induction evs with
  | nil =>
    intro s used dn sf hInv _ _ _ hrun
    rw [runFrom] at hrun
    injection hrun with he
    rw [downsAfter, ← he]
    exact hInv
  | cons e r ih =>
    intro s used dn sf hInv hsub hused hwf hrun
    cases e with
    | up t =>
      rw [wfAux, Bool.and_eq_true] at hwf
      obtain ⟨_, hwf2⟩ := hwf
      rw [runFrom, stepEv] at hrun
      rw [downsAfter]
      refine ih (process_key_up s t) used (dn.erase t) sf (invp_up s dn t hInv) ?_ ?_ hwf2 hrun
      · intro x hx
        exact hsub x (List.mem_of_mem_erase hx)
      · intro x hx
        rw [process_key_up_ud] at hx
        exact hused x hx
    | down t res =>
      rw [wfAux, Bool.and_eq_true] at hwf
      obtain ⟨hfresh0, hwf2⟩ := hwf
      rw [Bool.not_eq_true'] at hfresh0
      have hfresh : t ∉ used := by
        intro hmem
        have hcm : used.contains t = true := by
          show List.elem t used = true
          exact List.elem_iff.mpr hmem
        rw [hfresh0] at hcm
        exact Bool.noConfusion hcm
      have htdn : t ∉ dn := fun hx => hfresh (hsub t hx)
      have hud : dget s.ud t = none := by
        cases hcase : dget s.ud t with
        | none => rfl
        | some key => exact absurd (hused t (by rw [hcase]; rfl)) hfresh
      have hsub2 : ∀ x ∈ t :: dn, x ∈ t :: used := by
        intro x hx
        rcases List.mem_cons.mp hx with rfl | hx2
        · exact List.mem_cons_self x used
        · exact List.mem_cons_of_mem _ (hsub x hx2)
      rw [runFrom, stepEv] at hrun
      rw [downsAfter]
      cases res with
      | none =>
        have hstep : process_key_on s t none = some s := rfl
        rw [hstep] at hrun
        refine ih s (t :: used) (t :: dn) sf (invp_down_skip s dn t hInv) hsub2 ?_ hwf2 hrun
        intro x hx
        exact List.mem_cons_of_mem _ (hused x hx)
      | some key =>
        have hused2 : ∀ x : ℕ, (dget (dset s.ud t key) x).isSome = true → x ∈ t :: used := by
          intro x hx
          by_cases hxt : x = t
          · subst hxt
            exact List.mem_cons_self x used
          · rw [dget_dset_ne _ _ _ _ hxt] at hx
            exact List.mem_cons_of_mem _ (hused x hx)
        cases hsp : key.1.special with
        | none =>
          have hstep : process_key_on s t (some key)
              = some ⟨dset s.active ((t : ℕ) : ℤ) key.2, s.haveShift, s.haveCapslock,
                  dset s.ud t key,
                  if sendSuppress none then s.sent else s.sent ++ [key.1]⟩ := by
            rw [process_key_on]
            rw [hsp]
          rw [hstep] at hrun
          exact ih _ (t :: used) (t :: dn) sf
            (invp_down_other s dn t key s.haveShift _ hInv htdn (by rw [hsp]; simp))
            hsub2 hused2 hwf2 hrun
        | some sp =>
          by_cases hc1 : sp = "capslock"
          · subst hc1
            have hstep : process_key_on s t (some key)
                = some ⟨dset s.active (-1) key.2, s.haveShift, !s.haveCapslock,
                    dset s.ud t key,
                    if sendSuppress (some "capslock") then s.sent else s.sent ++ [key.1]⟩ := by
              rw [process_key_on]
              rw [hsp]
              rfl
            rw [hstep] at hrun
            exact ih _ (t :: used) (t :: dn) sf
              (invp_down_caps s dn t key s.haveShift (!s.haveCapslock) _ hInv htdn hsp)
              hsub2 hused2 hwf2 hrun
          · have hnc : key.1.special ≠ some "capslock" := by
              rw [hsp]
              intro hh
              injection hh with hh2
              exact hc1 hh2
            by_cases hc2 : sp = "shift_L" ∨ sp = "shift_R"
            · have hstep : process_key_on s t (some key)
                  = some ⟨dset s.active ((t : ℕ) : ℤ) key.2, true, s.haveCapslock,
                      dset s.ud t key,
                      if sendSuppress (some sp) then s.sent else s.sent ++ [key.1]⟩ := by
                rw [process_key_on]
                rw [hsp]
                dsimp only
                rw [if_neg hc1, if_pos hc2]
              rw [hstep] at hrun
              exact ih _ (t :: used) (t :: dn) sf
                (invp_down_other s dn t key true _ hInv htdn hnc)
                hsub2 hused2 hwf2 hrun
            · by_cases hc3 : sp = "layout"
              · subst hc3
                have hstep : process_key_on s t (some key) = none := by
                  rw [process_key_on]
                  rw [hsp]
                  rfl
                rw [hstep] at hrun
                simp at hrun
              · have hstep : process_key_on s t (some key)
                    = some ⟨dset s.active ((t : ℕ) : ℤ) key.2, s.haveShift, s.haveCapslock,
                        dset s.ud t key,
                        if sendSuppress (some sp) then s.sent else s.sent ++ [key.1]⟩ := by
                  rw [process_key_on]
                  rw [hsp]
                  dsimp only
                  rw [if_neg hc1, if_neg hc2, if_neg hc3]
                rw [hstep] at hrun
                exact ih _ (t :: used) (t :: dn) sf
                  (invp_down_other s dn t key s.haveShift _ hInv htdn hnc)
                  hsub2 hused2 hwf2 hrun

/-- C1 amended: over every well-formed event sequence, at each point at
which no currently-held touch resolved to capslock, the sentinel entry -1
is in active_keys exactly when have_capslock is true (while a capslock
touch is held the two can disagree: a press that toggles capslock off
still records the sentinel until its release); and every active_keys
entry under a real touch uid belongs to a currently-held touch whose
recorded key is not capslock, so shift entries live under their own touch
uid, disappear when that touch is released, and are never stored under
the sentinel. -/
theorem sentinel_invariant (evs : List KEvent) (s : KState)
    (hwf : wfTrace evs = true) (hrun : runTrace evs = some s) :
    (capsHeld s.ud (downsAfter [] evs) = 0 →
      ((dget s.active (-1)).isSome = true ↔ s.haveCapslock = true))
    ∧ (∀ t : ℕ, (dget s.active ((t : ℕ) : ℤ)).isSome = true →
        t ∈ downsAfter [] evs
        ∧ ∃ key, dget s.ud t = some key ∧ key.1.special ≠ some "capslock") := by
  have hInv0 : InvP initState [] := by
    refine ⟨?_, ?_, ?_⟩
    · intro hc
      exact absurd hc (by simp [initState])
    · intro _ hsent
      exact absurd hsent (by simp [initState, dget])
    · intro x hx
      exact absurd hx (by simp [initState, dget])
  have h := inv_run evs initState [] [] s hInv0 (by simp) (by simp [initState, dget]) hwf hrun
  obtain ⟨h1, h2, h3⟩ := h
  exact ⟨fun hch => ⟨h2 hch, h1⟩, h3⟩

/-- Witness for sentinel_invariant after a capslock press and release:
the sentinel entry is present and have_capslock is true. -/
theorem sentinel_invariant_witness :
    (dget capsOnState.active (-1)).isSome = true ↔ capsOnState.haveCapslock = true :=
  (sentinel_invariant capsOnTrace capsOnState (by decide) (by decide)).1 (by decide)

lemma pyint_eq_floor (q : ℚ) (h : 0 ≤ q) : pyint q = ⌊q⌋ := by
  rw [pyint, if_pos h]

lemma pyint_le (q : ℚ) (h : 0 ≤ q) : (pyint q : ℚ) ≤ q := by
  rw [pyint_eq_floor q h]
  exact Int.floor_le q

lemma pyint_gt (q : ℚ) (h : 0 ≤ q) : q - 1 < (pyint q : ℚ) := by
  rw [pyint_eq_floor q h]
  exact Int.sub_one_lt_floor q

/-- C6: the line computation of get_key_at_pos equals
rows - floor((y - mbottom * h) / line_height) clamped into [1, rows]
(the source truncates toward zero, but for negative offsets both
truncation and floor clamp to the bottom row), and on the open band of
row l produced by the compiler (row 1 topmost) it returns exactly l. -/
theorem row_inversion_floor_clamp (k : VK) (y : ℚ) (l : ℕ)
    (hh : 0 < k.h) (hm : k.mtop + k.mbottom < 1) (hr : 1 ≤ k.rows)
    (hl1 : 1 ≤ l) (hl2 : l ≤ k.rows) :
    k.lineOfY y
        = max 1 (min ((k.rows : ℤ))
            ((k.rows : ℤ)
              - ⌊(y - k.mbottom * k.h) / ((k.h - (k.mbottom + k.mtop) * k.h) / (k.rows : ℚ))⌋))
    ∧ (k.yHint ((l : ℕ) : ℤ) < y / k.h → y / k.h < k.yHint ((l : ℕ) : ℤ) + k.uh →
        k.lineOfY y = ((l : ℕ) : ℤ)) := by
  have hrQ : (0 : ℚ) < (k.rows : ℚ) := by
    have : 0 < k.rows := by omega
    exact_mod_cast this
  have heh : (0 : ℚ) < 1 - k.mtop - k.mbottom := by linarith
  have hehQ : (0 : ℚ) < k.eh := by rw [VK.eh]; linarith
  have huh : (0 : ℚ) < k.uh := by
    rw [VK.uh]
    exact mul_pos (by positivity) hehQ
  have hehr : k.eh = (k.rows : ℚ) * k.uh := by
    rw [VK.uh]
    field_simp
  have h1Z : (1 : ℤ) ≤ (k.rows : ℤ) := by exact_mod_cast hr
  constructor
  · simp only [VK.lineOfY]
    set q : ℚ :=
      (y - k.mbottom * k.h) / ((k.h - (k.mbottom + k.mtop) * k.h) / (k.rows : ℚ)) with hqdef
    rcases le_or_lt 0 q with hq0 | hq0
    · rw [pyint_eq_floor q hq0]
      split_ifs <;> omega
    · rw [pyint, if_neg (not_le.mpr hq0)]
      have hc : (⌈q⌉ : ℤ) ≤ 0 := Int.ceil_le.mpr (by push_cast; linarith)
      have hf : ⌊q⌋ < 0 := Int.floor_lt.mpr (by push_cast; exact hq0)
      split_ifs <;> omega
  · intro hb1 hb2
    simp only [VK.lineOfY]
    set q : ℚ :=
      (y - k.mbottom * k.h) / ((k.h - (k.mbottom + k.mtop) * k.h) / (k.rows : ℚ)) with hqdef
    have hlh2 : (k.h - (k.mbottom + k.mtop) * k.h) / (k.rows : ℚ) = k.uh * k.h := by
      rw [VK.uh, VK.eh]
      field_simp
      ring
    have hqval : q = (y - k.mbottom * k.h) / (k.uh * k.h) := by rw [hqdef, hlh2]
    have hb1m : (k.ey + k.eh - ((l : ℚ)) * k.uh) * k.h < y := by
      have h0 := (lt_div_iff hh).mp hb1
      rw [VK.yHint] at h0
      push_cast at h0
      exact h0
    have hb2m : y < (k.ey + k.eh - ((l : ℚ)) * k.uh + k.uh) * k.h := by
      have h0 := (div_lt_iff hh).mp hb2
      rw [VK.yHint] at h0
      push_cast at h0
      linarith
    rw [VK.ey] at hb1m hb2m
    rw [hehr] at hb1m hb2m
    have hq1 : ((k.rows : ℚ) - l) < q := by
      rw [hqval, lt_div_iff (mul_pos huh hh)]
      ring_nf at hb1m ⊢
      linarith
    have hq2 : q < ((k.rows : ℚ) - l) + 1 := by
      rw [hqval, div_lt_iff (mul_pos huh hh)]
      ring_nf at hb2m ⊢
      linarith
    have hq0 : 0 ≤ q := by
      have hlr : (l : ℚ) ≤ (k.rows : ℚ) := by exact_mod_cast hl2
      linarith
    rw [pyint_eq_floor q hq0]
    have hfl : ⌊q⌋ = (k.rows : ℤ) - ((l : ℕ) : ℤ) := by
      refine Int.floor_eq_iff.mpr ⟨?_, ?_⟩
      · push_cast
        linarith
      · push_cast
        linarith
    rw [hfl]
    have h1l : (1 : ℤ) ≤ ((l : ℕ) : ℤ) := by exact_mod_cast hl1
    have h2l : ((l : ℕ) : ℤ) ≤ (k.rows : ℤ) := by exact_mod_cast hl2
    split_ifs <;> omega

/-- Witness for row_inversion_floor_clamp on the default widget at
y = 100 and row 1. -/
theorem row_inversion_floor_clamp_witness :
    kWit.lineOfY 100
        = max 1 (min ((kWit.rows : ℤ))
            ((kWit.rows : ℤ)
              - ⌊((100 : ℚ) - kWit.mbottom * kWit.h)
                  / ((kWit.h - (kWit.mbottom + kWit.mtop) * kWit.h) / (kWit.rows : ℚ))⌋))
    ∧ (kWit.yHint ((1 : ℕ) : ℤ) < 100 / kWit.h →
        100 / kWit.h < kWit.yHint ((1 : ℕ) : ℤ) + kWit.uh →
        kWit.lineOfY 100 = ((1 : ℕ) : ℤ)) :=
  row_inversion_floor_clamp kWit 100 1 (by with_unfolding_all decide)
    (by with_unfolding_all decide) (by decide) (by decide) (by decide)

lemma rowHints_get (keys : List KeyData) :
    ∀ (x0 y uw uh : ℚ) (i : ℕ) (hi : i < keys.length),
      0 ≤ uw → (∀ kd ∈ keys, 0 ≤ kd.width) →
      ∃ xi, (rowHints x0 y uw uh keys).get? i
          = some ((xi, y), ((keys.get ⟨i, hi⟩).width * uw, uh)) ∧ x0 ≤ xi := by
  induction keys with
  | nil =>
    intro x0 y uw uh i hi _ _
    exact absurd hi (by simp)
  | cons kd rest ih =>
    intro x0 y uw uh i hi huw hwd
    cases i with
    | zero => exact ⟨x0, rfl, le_refl x0⟩
    | succ j =>
      have hj : j < rest.length := by simpa using hi
      obtain ⟨xi, hget, hle⟩ := ih (x0 + kd.width * uw) y uw uh j hj huw
        (fun x hx => hwd x (List.mem_cons_of_mem _ hx))
      refine ⟨xi, ?_, ?_⟩
      · rw [rowHints]
        simpa using hget
      · have h0 : 0 ≤ kd.width * uw := mul_nonneg (hwd kd (List.mem_cons_self kd rest)) huw
        linarith

lemma rowHints_start_mono (keys : List KeyData) :
    ∀ (x0 y uw uh : ℚ) (i : ℕ) (e : (ℚ × ℚ) × (ℚ × ℚ)),
      0 ≤ uw → (∀ kd ∈ keys, 0 ≤ kd.width) →
      (rowHints x0 y uw uh keys).get? i = some e → x0 ≤ e.1.1 := by
  induction keys with
  | nil =>
    intro x0 y uw uh i e _ _ hget
    rw [rowHints] at hget
    simp at hget
  | cons kd rest ih =>
    intro x0 y uw uh i e huw hwd hget
    cases i with
    | zero =>
      rw [rowHints, List.get?_cons_zero] at hget
      injection hget with he
      rw [← he]
    | succ j =>
      rw [rowHints, List.get?_cons_succ] at hget
      have h0 : 0 ≤ kd.width * uw := mul_nonneg (hwd kd (List.mem_cons_self kd rest)) huw
      have := ih (x0 + kd.width * uw) y uw uh j e huw
        (fun x hx => hwd x (List.mem_cons_of_mem _ hx)) hget
      linarith

lemma scanKeys_eq (keys : List KeyData) :
    ∀ (x0 y uw uh xh : ℚ) (n i : ℕ) (xi wi hh2 : ℚ),
      0 ≤ uw → (∀ kd ∈ keys, 0 ≤ kd.width) →
      (rowHints x0 y uw uh keys).get? i = some ((xi, y), (wi, hh2)) →
      xi ≤ xh → xh < xi + wi →
      scanKeys xh (rowHints x0 y uw uh keys) n = some (n + i) := by
  induction keys with
  | nil =>
    intro x0 y uw uh xh n i xi wi hh2 _ _ hget _ _
    rw [rowHints] at hget
    simp at hget
  | cons kd rest ih =>
    intro x0 y uw uh xh n i xi wi hh2 huw hwd hget hlo hhi
    cases i with
    | zero =>
      rw [rowHints, List.get?_cons_zero] at hget
      injection hget with he
      have hx0 : x0 = xi := congrArg (fun p => p.1.1) he
      have hwi : kd.width * uw = wi := congrArg (fun p => p.2.1) he
      have hcond : xh ≥ ((x0, y), (kd.width * uw, uh)).1.1
          ∧ xh < ((x0, y), (kd.width * uw, uh)).1.1 + ((x0, y), (kd.width * uw, uh)).2.1 := by
        refine ⟨?_, ?_⟩
        · show xh ≥ x0
          rw [hx0]
          exact hlo
        · show xh < x0 + kd.width * uw
          rw [hx0, hwi]
          exact hhi
      rw [rowHints, scanKeys, if_pos hcond, Nat.add_zero]
    | succ j =>
      rw [rowHints, List.get?_cons_succ] at hget
      have htail : ∀ kd2 ∈ rest, 0 ≤ kd2.width := fun x hx => hwd x (List.mem_cons_of_mem _ hx)
      have hxi : x0 + kd.width * uw ≤ xi := by
        have := rowHints_start_mono rest (x0 + kd.width * uw) y uw uh j
          ((xi, y), (wi, hh2)) huw htail hget
        simpa using this
      have hncond : ¬(xh ≥ ((x0, y), (kd.width * uw, uh)).1.1
          ∧ xh < ((x0, y), (kd.width * uw, uh)).1.1 + ((x0, y), (kd.width * uw, uh)).2.1) := by
        rintro ⟨_, hlt⟩
        have : xh < x0 + kd.width * uw := hlt
        linarith
      rw [rowHints, scanKeys, if_neg hncond]
      have hrec := ih (x0 + kd.width * uw) y uw uh xh (n + 1) j xi wi hh2 huw htail hget hlo hhi
      rw [hrec]
      congr 1
      omega

lemma center_between (lo wdt ml mr : ℚ)
    (hlo : 0 ≤ lo) (hml : 0 ≤ ml) (hmr : 0 ≤ mr)
    (hwdt : 3 + ml + mr ≤ wdt) :
    lo ≤ (pyint (lo + ml) : ℚ) + (pyint (wdt - ml - mr) : ℚ) / 2
    ∧ (pyint (lo + ml) : ℚ) + (pyint (wdt - ml - mr) : ℚ) / 2 < lo + wdt := by
  have hA : 0 ≤ lo + ml := by linarith
  have hC : 0 ≤ wdt - ml - mr := by linarith
  have h1 := pyint_le (lo + ml) hA
  have h2 := pyint_gt (lo + ml) hA
  have h3 := pyint_le (wdt - ml - mr) hC
  have h4 := pyint_gt (wdt - ml - mr) hC
  constructor <;> linarith

lemma lineOfY_band (k : VK) (yv : ℚ) (l : ℕ)
    (hh : 0 < k.h) (hr : 1 ≤ k.rows) (huh : 0 < k.uh)
    (hl1 : 1 ≤ l) (hl2 : l ≤ k.rows)
    (hb1 : k.yHint ((l : ℕ) : ℤ) * k.h ≤ yv)
    (hb2 : yv < (k.yHint ((l : ℕ) : ℤ) + k.uh) * k.h) :
    k.lineOfY yv = ((l : ℕ) : ℤ) := by
  have hrQ : (0 : ℚ) < (k.rows : ℚ) := by
    have : 0 < k.rows := by omega
    exact_mod_cast this
  have hehr : k.eh = (k.rows : ℚ) * k.uh := by
    rw [VK.uh]
    field_simp
  simp only [VK.lineOfY]
  set q : ℚ :=
    (yv - k.mbottom * k.h) / ((k.h - (k.mbottom + k.mtop) * k.h) / (k.rows : ℚ)) with hqdef
  have hlh2 : (k.h - (k.mbottom + k.mtop) * k.h) / (k.rows : ℚ) = k.uh * k.h := by
    rw [VK.uh, VK.eh]
    field_simp
    ring
  have hqval : q = (yv - k.mbottom * k.h) / (k.uh * k.h) := by rw [hqdef, hlh2]
  have hb1m : (k.mbottom + (k.rows : ℚ) * k.uh - ((l : ℚ)) * k.uh) * k.h ≤ yv := by
    rw [VK.yHint, VK.ey, hehr] at hb1
    push_cast at hb1
    exact hb1
  have hb2m : yv < (k.mbottom + (k.rows : ℚ) * k.uh - ((l : ℚ)) * k.uh + k.uh) * k.h := by
    rw [VK.yHint, VK.ey, hehr] at hb2
    push_cast at hb2
    linarith
  have hq1 : ((k.rows : ℚ) - l) ≤ q := by
    rw [hqval, le_div_iff (mul_pos huh hh)]
    ring_nf at hb1m ⊢
    linarith
  have hq2 : q < ((k.rows : ℚ) - l) + 1 := by
    rw [hqval, div_lt_iff (mul_pos huh hh)]
    ring_nf at hb2m ⊢
    linarith
  have hq0 : 0 ≤ q := by
    have hlr : (l : ℚ) ≤ (k.rows : ℚ) := by exact_mod_cast hl2
    linarith
  rw [pyint_eq_floor q hq0]
  have hfl : ⌊q⌋ = (k.rows : ℤ) - ((l : ℕ) : ℤ) := by
    refine Int.floor_eq_iff.mpr ⟨?_, ?_⟩
    · push_cast
      linarith
    · push_cast
      linarith
  rw [hfl]
  have h1l : (1 : ℤ) ≤ ((l : ℕ) : ℤ) := by exact_mod_cast hl1
  have h2l : ((l : ℕ) : ℤ) ≤ (k.rows : ℤ) := by exact_mod_cast hl2
  split_ifs <;> omega

/-- C3 amended: for a compiled geometry with nonnegative left and bottom
margin hints, nonnegative key margins and nonnegative key width units, if
a key hint rectangle spans at least 3 pixels plus the horizontal key
margins in width and the row band at least 3 pixels plus the vertical key
margins in height, then the center of that key pixel rectangle is
resolved by get_key_at_pos back to the same (row, key_index); without the
size condition the center can land on a neighbouring key. -/
theorem hit_center_roundtrip (k : VK) (l i : ℕ) (row : List KeyData)
    (hw : 0 < k.w) (hh : 0 < k.h)
    (hml : 0 ≤ k.mleft) (hmb : 0 ≤ k.mbottom)
    (hkt : 0 ≤ k.kmtop) (hkr : 0 ≤ k.kmright) (hkb : 0 ≤ k.kmbottom) (hkl : 0 ≤ k.kmleft)
    (hl1 : 1 ≤ l) (hl2 : l ≤ k.rows)
    (hrow : k.lines.get? (l - 1) = some row)
    (hwid : ∀ kd ∈ row, 0 ≤ kd.width)
    (hi : i < row.length)
    (hkw : 3 + k.kmleft + k.kmright ≤ (row.get ⟨i, hi⟩).width * k.uw * k.w)
    (hkh : 3 + k.kmbottom + k.kmtop ≤ k.uh * k.h)
    (r : (ℤ × ℤ) × (ℤ × ℤ))
    (hr : (k.lineGeometry ((l : ℕ) : ℤ)).get? i = some r) :
    (k.get_key_at_pos (centerPt r).1 (centerPt r).2).map (fun p => p.2)
      = some ((((l : ℕ) : ℤ)), i) := by
  have hkeys : k.lineKeys ((l : ℕ) : ℤ) = row := by
    rw [VK.lineKeys]
    have h1 : (((l : ℕ) : ℤ) - 1).toNat = l - 1 := by omega
    rw [h1]
    show (k.lines.get? (l - 1)).getD [] = row
    rw [hrow]
    rfl
  have hwidI : 0 ≤ (row.get ⟨i, hi⟩).width := hwid _ (row.get_mem i hi)
  have huw : 0 < k.uw := by
    rcases le_or_lt k.uw 0 with hle | hpos
    · exfalso
      have h2 := mul_nonneg (mul_nonneg hwidI (neg_nonneg.mpr hle)) (le_of_lt hw)
      nlinarith
    · exact hpos
  have huh : 0 < k.uh := by
    rcases le_or_lt k.uh 0 with hle | hpos
    · exfalso
      have h2 := mul_nonneg (neg_nonneg.mpr hle) (le_of_lt hh)
      nlinarith
    · exact hpos
  have hrQ : (0 : ℚ) < (k.rows : ℚ) := by
    have : 0 < k.rows := by omega
    exact_mod_cast this
  have hehr : k.eh = (k.rows : ℚ) * k.uh := by
    rw [VK.uh]
    field_simp
  have hLH : k.lineHints ((l : ℕ) : ℤ)
      = rowHints k.ex (k.yHint ((l : ℕ) : ℤ)) k.uw k.uh row := by
    rw [VK.lineHints, hkeys]
  obtain ⟨xi, hhint, hxi⟩ :=
    rowHints_get row k.ex (k.yHint ((l : ℕ) : ℤ)) k.uw k.uh i hi (le_of_lt huw) hwid
  have hr2 : r = k.pixelKey
      ((xi, k.yHint ((l : ℕ) : ℤ)), ((row.get ⟨i, hi⟩).width * k.uw, k.uh)) := by
    rw [VK.lineGeometry, hLH, List.get?_map, hhint] at hr
    simp only [Option.map_some'] at hr
    injection hr with he
    exact he.symm
  subst hr2
  set wda : ℚ := (row.get ⟨i, hi⟩).width * k.uw with hwda
  have hcenter : centerPt (k.pixelKey
        ((xi, k.yHint ((l : ℕ) : ℤ)), (wda, k.uh)))
      = ((pyint (xi * k.w + k.kmleft) : ℚ)
            + (pyint (wda * k.w - k.kmleft - k.kmright) : ℚ) / 2,
         (pyint (k.yHint ((l : ℕ) : ℤ) * k.h + k.kmbottom) : ℚ)
            + (pyint (k.uh * k.h - k.kmbottom - k.kmtop) : ℚ) / 2) := rfl
  set cx : ℚ := (pyint (xi * k.w + k.kmleft) : ℚ)
      + (pyint (wda * k.w - k.kmleft - k.kmright) : ℚ) / 2 with hcxdef
  set cy : ℚ := (pyint (k.yHint ((l : ℕ) : ℤ) * k.h + k.kmbottom) : ℚ)
      + (pyint (k.uh * k.h - k.kmbottom - k.kmtop) : ℚ) / 2 with hcydef
  have hxi0 : 0 ≤ xi := by
    have hex : (0 : ℚ) ≤ k.ex := by rw [VK.ex]; exact hml
    linarith
  have hbx := center_between (xi * k.w) (wda * k.w) k.kmleft k.kmright
    (mul_nonneg hxi0 (le_of_lt hw)) hkl hkr hkw
  have hyH0 : 0 ≤ k.yHint ((l : ℕ) : ℤ) := by
    have hlrQ : ((l : ℕ) : ℚ) ≤ (k.rows : ℚ) := by exact_mod_cast hl2
    rw [VK.yHint, VK.ey, hehr]
    push_cast
    nlinarith [mul_nonneg (sub_nonneg.mpr hlrQ) (le_of_lt huh)]
  have hby := center_between (k.yHint ((l : ℕ) : ℤ) * k.h) (k.uh * k.h) k.kmbottom k.kmtop
    (mul_nonneg hyH0 (le_of_lt hh)) hkb hkt hkh
  have hline : k.lineOfY cy = ((l : ℕ) : ℤ) := by
    refine lineOfY_band k cy l hh (by omega) huh hl1 hl2 hby.1 ?_
    have hexp : (k.yHint ((l : ℕ) : ℤ) + k.uh) * k.h
        = k.yHint ((l : ℕ) : ℤ) * k.h + k.uh * k.h := by ring
    rw [hexp]
    exact hby.2
  have hxh1 : xi ≤ cx / k.w := (le_div_iff hw).mpr hbx.1
  have hxh2 : cx / k.w < xi + wda := by
    rw [div_lt_iff hw]
    have hexp : (xi + wda) * k.w = xi * k.w + wda * k.w := by ring
    rw [hexp]
    exact hbx.2
  have hscan : scanKeys (cx / k.w) (k.lineHints ((l : ℕ) : ℤ)) 0 = some i := by
    rw [hLH]
    have hs := scanKeys_eq row k.ex (k.yHint ((l : ℕ) : ℤ)) k.uw k.uh (cx / k.w) 0 i
      xi wda k.uh (le_of_lt huw) hwid hhint hxh1 hxh2
    simpa using hs
  rw [hcenter]
  show (k.get_key_at_pos cx cy).map (fun p => p.2) = some ((((l : ℕ) : ℤ)), i)
  simp only [VK.get_key_at_pos]
  rw [hline, hscan, hkeys]
  dsimp only
  rw [List.get?_eq_get hi]
  rfl

/-- Witness for hit_center_roundtrip: key 1 of row 1 of the default
widget has pixel rectangle ((352, 12), (304, 176)); its center resolves
back to (row 1, key 1). -/
theorem hit_center_roundtrip_witness :
    (kWit.get_key_at_pos (centerPt ((352, 12), (304, 176))).1
        (centerPt ((352, 12), (304, 176))).2).map (fun p => p.2)
      = some ((((1 : ℕ) : ℤ)), 1) :=
  hit_center_roundtrip kWit 1 1 [kdA, kdB]
    (by with_unfolding_all decide) (by with_unfolding_all decide)
    (by with_unfolding_all decide) (by with_unfolding_all decide)
    (by with_unfolding_all decide) (by with_unfolding_all decide)
    (by with_unfolding_all decide) (by with_unfolding_all decide)
    (by decide) (by decide) (by with_unfolding_all decide)
    (by with_unfolding_all decide) (by decide)
    (by with_unfolding_all decide) (by with_unfolding_all decide)
    ((352, 12), (304, 176)) (by with_unfolding_all decide)
